import Mathlib

/-
Verification of the change-impact analysis engine of go-ripple
(internal/rippler/rippler.go together with internal/model/gomod.go).

The Go code is shallowly embedded as executable Lean definitions:

* Go structs become Lean structures with the same fields.
* Go maps become either functions into Option (when only looked up) or
  association lists kept in first-insertion order (when also iterated);
  wherever a Go map is iterated and the iteration order is observable, the
  enumeration is an explicit parameter ranging over permutations of the keys.
* Go byte-wise string comparisons (strings.Compare, strings.HasPrefix,
  strings.TrimSpace) are modeled on the character list String.data; on UTF-8
  encoded strings the byte-wise orders used by Go coincide with the
  character-wise orders used here.
* The unbounded worklist loop of propagateAffectedPackages is modeled with an
  explicit fuel argument which is proven large enough: every iteration pops
  one queue element and every enqueued element is a package import path that
  was newly inserted into the visited set.
* Subprocess-backed calls (git, go list, go mod edit) are opaque oracles
  returning Except values; the pure logic applied to their results is the
  translated code.
-/

namespace GoRipple

abbrev Ident := String

/-- Model of model.GoModDependency: Path, Version, Indirect. -/
structure GoModDependency where
  path : String
  version : String
  indirect : Bool
deriving DecidableEq

/-- Model of model.GoModReplace: Old, New. -/
structure GoModReplace where
  old : GoModDependency
  new : GoModDependency
deriving DecidableEq

/-- Model of model.GoMod: Module, Go, Require, Exclude, Replace, Tool. -/
structure GoMod where
  module : GoModDependency
  goVersion : String
  require : List GoModDependency
  exclude : List GoModDependency
  replace : List GoModReplace
  tool : List GoModDependency
deriving DecidableEq

/-- Model of model.Package: Dir, GoFiles, ImportPath, Imports, TestImports,
XTestImports, Deps (the output of go list -json). -/
structure Package where
  dir : String
  goFiles : List String
  importPath : Ident
  imports : List Ident
  testImports : List Ident
  xtestImports : List Ident
  deps : List Ident
deriving DecidableEq

/-- Model of rippler.Change: PackageName, Reasons. -/
structure Change where
  packageName : String
  reasons : List String
deriving DecidableEq

/-- Model of model.AffectedPackage: ImportPath, Indirect. -/
structure AffectedPackage where
  importPath : String
  indirect : Bool
deriving DecidableEq

/-- Model of rippler.Report: GoMod, DirtyFiles, AllPackages, AffectedPackages,
Changes. -/
structure Report where
  goMod : GoMod
  dirtyFiles : List String
  allPackages : List Package
  affectedPackages : List AffectedPackage
  changes : List Change
deriving DecidableEq

/-- Model of strings.HasPrefix(s, pre): byte-wise prefix test, rendered on the
character list (equivalent on UTF-8 input). -/
def goStartsWith (s pre : String) : Bool :=
  List.isPrefixOf pre.data s.data

theorem string_data_inj {a b : String} (h : a.data = b.data) : a = b := by
  cases a
  cases b
  exact congrArg String.mk h

/-- The package names of a list of change records. -/
def namesOf (l : List Change) : List Ident := l.map (·.packageName)

/- ------------------------------------------------------------------
4.1 Manifest differ: getChangedModules (rippler.go, lines 332-365).
The subprocess part (git show of the baseline go.mod, temp-file write and
parse) is an oracle; the pure diff below is translated from the loop bodies.
------------------------------------------------------------------ -/

/-- The oldSet map built in getChangedModules: Go map assignment in slice
order (a later entry for the same path overwrites an earlier one), lookup
modeled as a function into Option. -/
def requireLookup (entries : List GoModDependency) : String → Option String :=
  entries.foldl (fun m e => fun p => if p = e.path then some e.version else m p)
    (fun _ => none)

/-- One iteration of the getChangedModules loop over currentGoMod.Require:
the path is collected when it is absent from oldSet or its version differs. -/
def changedStep (oldReq : List GoModDependency) (changed : List String)
    (e : GoModDependency) : List String :=
  match requireLookup oldReq e.path with
  | none => changed ++ [e.path]
  | some oldVer => if oldVer ≠ e.version then changed ++ [e.path] else changed

/-- getChangedModules: diff of two parsed go.mod snapshots. -/
def getChangedModules (oldMod currentGoMod : GoMod) : List String :=
  currentGoMod.require.foldl (changedStep oldMod.require) []

theorem mem_changedStep (oldReq : List GoModDependency) (changed : List String)
    (e : GoModDependency) (p : String) :
    p ∈ changedStep oldReq changed e ↔
      p ∈ changed ∨ (e.path = p ∧ requireLookup oldReq p ≠ some e.version) := by
  unfold changedStep
  rcases h : requireLookup oldReq e.path with _ | v
  · constructor
    · intro hm
      rcases List.mem_append.mp hm with hc | hp
      · exact Or.inl hc
      · rcases List.mem_singleton.mp hp with rfl
        exact Or.inr ⟨rfl, by rw [h]; exact fun hx => Option.noConfusion hx⟩
    · intro hm
      rcases hm with hc | ⟨rfl, _⟩
      · exact List.mem_append_left _ hc
      · exact List.mem_append_right _ (List.mem_singleton.mpr rfl)
  · show (p ∈ if v ≠ e.version then changed ++ [e.path] else changed) ↔ _
    by_cases hv : v = e.version
    · subst hv
      rw [if_neg (fun hx => hx rfl)]
      constructor
      · exact Or.inl
      · intro hm
        rcases hm with hc | ⟨rfl, hne⟩
        · exact hc
        · exact absurd h hne
    · rw [if_pos hv]
      constructor
      · intro hm
        rcases List.mem_append.mp hm with hc | hp
        · exact Or.inl hc
        · rcases List.mem_singleton.mp hp with rfl
          refine Or.inr ⟨rfl, ?_⟩
          rw [h]
          intro hx
          exact hv (Option.some.inj hx)
      · intro hm
        rcases hm with hc | ⟨rfl, _⟩
        · exact List.mem_append_left _ hc
        · exact List.mem_append_right _ (List.mem_singleton.mpr rfl)

theorem mem_changed_foldl (oldReq : List GoModDependency) :
    ∀ (entries : List GoModDependency) (acc : List String) (p : String),
      p ∈ entries.foldl (changedStep oldReq) acc ↔
        p ∈ acc ∨ ∃ e ∈ entries, e.path = p ∧ requireLookup oldReq p ≠ some e.version := by
  intro entries
  induction entries with
  | nil => simp
  | cons e rest ih =>
    intro acc p
    rw [List.foldl_cons, ih, mem_changedStep]
    constructor
    · rintro ((hc | he) | ⟨f, hf, hfp⟩)
      · exact Or.inl hc
      · exact Or.inr ⟨e, List.mem_cons_self e rest, he⟩
      · exact Or.inr ⟨f, List.mem_cons_of_mem e hf, hfp⟩
    · rintro (hc | ⟨f, hf, hfp⟩)
      · exact Or.inl (Or.inl hc)
      · rcases List.mem_cons.mp hf with rfl | hf
        · exact Or.inl (Or.inr hfp)
        · exact Or.inr ⟨f, hf, hfp⟩

/-- Claim C4: the manifest differ returns exactly the paths of current Require
entries that are absent from the baseline Require set or whose version
differs, and it never returns a path without a current Require entry (so
baseline-only paths are never reported). -/
theorem getChangedModules_spec (oldMod currentGoMod : GoMod) (p : String) :
    (p ∈ getChangedModules oldMod currentGoMod ↔
      ∃ e ∈ currentGoMod.require, e.path = p ∧
        requireLookup oldMod.require p ≠ some e.version) ∧
    ((∀ e ∈ currentGoMod.require, e.path ≠ p) →
      p ∉ getChangedModules oldMod currentGoMod) := by
  constructor
  · rw [getChangedModules, mem_changed_foldl]
    simp
  · intro hall hmem
    rw [getChangedModules, mem_changed_foldl] at hmem
    rcases hmem with h | ⟨e, he, hep, _⟩
    · simp at h
    · exact hall e he hep

def goModC4Base : GoMod :=
  ⟨⟨"m", "", false⟩, "1.22",
    [⟨"ext/lib", "v1.0.0", false⟩, ⟨"gone/dep", "v2.0.0", false⟩], [], [], []⟩

def goModC4Cur : GoMod :=
  ⟨⟨"m", "", false⟩, "1.22",
    [⟨"ext/lib", "v1.1.0", false⟩, ⟨"new/dep", "v0.1.0", true⟩], [], [], []⟩

theorem getChangedModules_witness :
    "ext/lib" ∈ getChangedModules goModC4Base goModC4Cur ∧
    "gone/dep" ∉ getChangedModules goModC4Base goModC4Cur := by
  constructor
  · exact (getChangedModules_spec goModC4Base goModC4Cur "ext/lib").1.mpr (by decide)
  · exact (getChangedModules_spec goModC4Base goModC4Cur "gone/dep").2 (by decide)

/- ------------------------------------------------------------------
4.4 Change reconciler: unifyChanges (rippler.go, lines 503-521).
The unified Go map is modeled as an association list in first-insertion
order; reasons are concatenated onto the existing record. The final map
iteration of the source is order-unspecified, and the claims below only
look at the result as a mapping.
------------------------------------------------------------------ -/

/-- One iteration of the unifyChanges loop. -/
def unifyStep (acc : List Change) (c : Change) : List Change :=
  if (acc.find? fun e => decide (e.packageName = c.packageName)).isSome then
    acc.map fun e =>
      if e.packageName = c.packageName then
        Change.mk e.packageName (e.reasons ++ c.reasons)
      else e
  else acc ++ [c]

/-- unifyChanges: merge change records by package name. -/
def unifyChanges (ch : List Change) : List Change :=
  ch.foldl unifyStep []

/-- Lookup of the record for a package name (the mapping view of the
reconciled set). -/
def findByName (l : List Change) (n : Ident) : Option Change :=
  l.find? fun c => decide (c.packageName = n)

theorem namesOf_unifyStep (acc : List Change) (c : Change) :
    namesOf (unifyStep acc c) =
      if (acc.find? fun e => decide (e.packageName = c.packageName)).isSome then
        namesOf acc
      else namesOf acc ++ [c.packageName] := by
  unfold unifyStep
  by_cases h : (acc.find? fun e => decide (e.packageName = c.packageName)).isSome
  · simp only [h, if_true, namesOf, List.map_map]
    apply List.map_congr_left
    intro e _
    by_cases he : e.packageName = c.packageName <;> simp [he]
  · simp [h, namesOf]

theorem namesOf_unify_foldl_nodup :
    ∀ (ch : List Change) (acc : List Change),
      (namesOf acc).Nodup → (namesOf (ch.foldl unifyStep acc)).Nodup := by
  intro ch
  induction ch with
  | nil => intro acc h; exact h
  | cons c rest ih =>
    intro acc h
    rw [List.foldl_cons]
    apply ih
    rw [namesOf_unifyStep]
    by_cases hf : (acc.find? fun e => decide (e.packageName = c.packageName)).isSome = true
    · rw [if_pos hf]
      exact h
    · rw [if_neg hf]
      rw [List.nodup_append]
      refine ⟨h, List.nodup_singleton _, ?_⟩
      intro n hn hn1
      rcases List.mem_singleton.mp hn1 with rfl
      rcases List.mem_map.mp hn with ⟨e, he, hen⟩
      have := List.find?_eq_none.mp (Option.not_isSome_iff_eq_none.mp hf) e he
      simp [hen] at this

theorem unify_foldl_of_disjoint :
    ∀ (l acc : List Change), (namesOf (acc ++ l)).Nodup →
      l.foldl unifyStep acc = acc ++ l := by
  intro l
  induction l with
  | nil => intro acc _; simp
  | cons c rest ih =>
    intro acc h
    rw [List.foldl_cons]
    have hnodup : (namesOf ((acc ++ [c]) ++ rest)).Nodup := by
      simpa [namesOf] using h
    have hcnot : ¬ (acc.find? fun e => decide (e.packageName = c.packageName)).isSome := by
      intro hf
      rcases List.find?_isSome.mp hf with ⟨e, he, hep⟩
      have hdisj : (namesOf acc).Disjoint (namesOf (c :: rest)) := by
        have := h
        rw [namesOf, List.map_append] at this
        exact (List.nodup_append.mp this).2.2
      exact hdisj (List.mem_map.mpr ⟨e, he, rfl⟩)
        (by simp [namesOf, of_decide_eq_true hep])
    have hstep : unifyStep acc c = acc ++ [c] := by
      unfold unifyStep
      simp [hcnot]
    rw [hstep, ih (acc ++ [c]) hnodup, List.append_assoc]
    rfl

theorem unifyChanges_nodup (ch : List Change) :
    (namesOf (unifyChanges ch)).Nodup :=
  namesOf_unify_foldl_nodup ch [] (by simp [namesOf])

theorem unifyChanges_fix (ch : List Change) :
    unifyChanges (unifyChanges ch) = unifyChanges ch := by
  have h := unify_foldl_of_disjoint (unifyChanges ch) []
    (by simpa using unifyChanges_nodup ch)
  simpa [unifyChanges] using h

/-- Claim C5: the change reconciler is idempotent: reconciling the reconciled list
again yields the same mapping (same package-identifier set, and the same
record, hence the same reason list, for every identifier). -/
theorem unifyChanges_idempotent (L : List Change) :
    (∀ n, n ∈ namesOf (unifyChanges (unifyChanges L)) ↔ n ∈ namesOf (unifyChanges L)) ∧
    (∀ n, findByName (unifyChanges (unifyChanges L)) n = findByName (unifyChanges L) n) := by
  rw [unifyChanges_fix]
  exact ⟨fun n => Iff.rfl, fun n => rfl⟩

/- ------------------------------------------------------------------
4.3 File-to-unit mapper: mapPackagesByFile and affectedPackagesByFileChanges
(rippler.go, lines 212-254). The affected Go map is modeled as an
association list in first-insertion order; the claims below are insensitive
to the final map-iteration order of the source.
------------------------------------------------------------------ -/

/-- filepath.Join(dir, file) for the absolute directories of the inventory,
rendered as the posix concatenation used by go list output. -/
def joinPath (dir file : String) : String := dir ++ "/" ++ file

/-- mapPackagesByFile: map from absolute file path to owning import path;
Go map assignment in nesting order, a later assignment overwrites. -/
def mapPackagesByFile (pkgs : List Package) : String → Option Ident :=
  pkgs.foldl
    (fun m p =>
      p.goFiles.foldl
        (fun m f => fun path => if path = joinPath p.dir f then some p.importPath else m path)
        m)
    (fun _ => none)

/-- The reason string fmt.Sprintf("file %s has changed", file). -/
def reasonForFile (file : String) : String := "file " ++ file ++ " has changed"

/-- One iteration of the affectedPackagesByFileChanges loop over DirtyFiles. -/
def fileChangeStep (pm : String → Option Ident) (acc : List Change)
    (file : String) : List Change :=
  match pm file with
  | none => acc
  | some pkg =>
    if (acc.find? fun e => decide (e.packageName = pkg)).isSome then
      acc.map fun e =>
        if e.packageName = pkg then
          Change.mk e.packageName (e.reasons ++ [reasonForFile file])
        else e
    else acc ++ [Change.mk pkg [reasonForFile file]]

/-- affectedPackagesByFileChanges: one change record per unit owning a dirty
file, with one reason per matching file. -/
def affectedPackagesByFileChanges (pkgs : List Package) (dirtyFiles : List String) :
    List Change :=
  dirtyFiles.foldl (fileChangeStep (mapPackagesByFile pkgs)) []

theorem fileChangeStep_none (pm : String → Option Ident) (acc : List Change)
    (file : String) (h : pm file = none) : fileChangeStep pm acc file = acc := by
  unfold fileChangeStep
  rw [h]

theorem fileChangeStep_some (pm : String → Option Ident) (acc : List Change)
    (file : String) (pkg : Ident) (h : pm file = some pkg) :
    fileChangeStep pm acc file =
      if (acc.find? fun e => decide (e.packageName = pkg)).isSome then
        acc.map fun e =>
          if e.packageName = pkg then
            Change.mk e.packageName (e.reasons ++ [reasonForFile file])
          else e
      else acc ++ [Change.mk pkg [reasonForFile file]] := by
  unfold fileChangeStep
  rw [h]

theorem find_name_isSome (acc : List Change) (n : Ident) :
    (acc.find? fun e => decide (e.packageName = n)).isSome = true ↔ n ∈ namesOf acc := by
  rw [List.find?_isSome]
  constructor
  · rintro ⟨e, he, hep⟩
    exact List.mem_map.mpr ⟨e, he, of_decide_eq_true hep⟩
  · intro hm
    rcases List.mem_map.mp hm with ⟨e, he, rfl⟩
    exact ⟨e, he, by simp⟩

theorem namesOf_map_update (acc : List Change) (pkg : Ident) (r : String) :
    namesOf (acc.map fun e =>
      if e.packageName = pkg then Change.mk e.packageName (e.reasons ++ [r]) else e) =
    namesOf acc := by
  unfold namesOf
  rw [List.map_map]
  apply List.map_congr_left
  intro e _
  by_cases he : e.packageName = pkg <;> simp [he]

theorem namesOf_append (a b : List Change) :
    namesOf (a ++ b) = namesOf a ++ namesOf b := by
  unfold namesOf
  rw [List.map_append]

/-- The loop invariant of affectedPackagesByFileChanges relative to the
prefix of dirty files already processed. -/
def FileInv (pm : String → Option Ident) (acc : List Change) (files : List String) : Prop :=
  (namesOf acc).Nodup ∧
  (∀ n, n ∈ namesOf acc ↔ ∃ f ∈ files, pm f = some n) ∧
  (∀ c ∈ acc, c.reasons =
    (files.filter fun f => decide (pm f = some c.packageName)).map reasonForFile)

theorem fileStep_inv (pm : String → Option Ident) (acc : List Change)
    (files : List String) (file : String) (h : FileInv pm acc files) :
    FileInv pm (fileChangeStep pm acc file) (files ++ [file]) := by
  obtain ⟨hnodup, hmem, hreasons⟩ := h
  rcases hpf : pm file with _ | pkg
  · rw [fileChangeStep_none pm acc file hpf]
    refine ⟨hnodup, ?_, ?_⟩
    · intro n
      rw [hmem n]
      constructor
      · rintro ⟨f, hf, hfn⟩
        exact ⟨f, List.mem_append_left _ hf, hfn⟩
      · rintro ⟨f, hf, hfn⟩
        rcases List.mem_append.mp hf with hf1 | hf1
        · exact ⟨f, hf1, hfn⟩
        · rcases List.mem_singleton.mp hf1 with rfl
          rw [hpf] at hfn
          exact absurd hfn (by simp)
    · intro c hc
      rw [List.filter_append]
      have hnil : List.filter (fun f => decide (pm f = some c.packageName)) [file] = [] := by
        simp [hpf]
      rw [hnil, List.append_nil]
      exact hreasons c hc
  · rw [fileChangeStep_some pm acc file pkg hpf]
    by_cases hf : (acc.find? fun e => decide (e.packageName = pkg)).isSome = true
    · rw [if_pos hf]
      have hpkgmem : pkg ∈ namesOf acc := (find_name_isSome acc pkg).mp hf
      refine ⟨by rw [namesOf_map_update]; exact hnodup, ?_, ?_⟩
      · intro n
        rw [namesOf_map_update, hmem n]
        constructor
        · rintro ⟨f, hf1, hfn⟩
          exact ⟨f, List.mem_append_left _ hf1, hfn⟩
        · rintro ⟨f, hf1, hfn⟩
          rcases List.mem_append.mp hf1 with hf2 | hf2
          · exact ⟨f, hf2, hfn⟩
          · rcases List.mem_singleton.mp hf2 with rfl
            rw [hpf] at hfn
            rcases Option.some.inj hfn with rfl
            exact ((hmem _).mp hpkgmem)
      · intro c hc
        rcases List.mem_map.mp hc with ⟨e, he, rfl⟩
        by_cases hpn : e.packageName = pkg
        · rw [if_pos hpn]
          rw [List.filter_append]
          have hone : List.filter
              (fun f => decide (pm f = some (Change.mk e.packageName
                (e.reasons ++ [reasonForFile file])).packageName)) [file] = [file] := by
            simp [hpf, hpn]
          rw [hone, List.map_append]
          have := hreasons e he
          simp only [List.map_cons, List.map_nil]
          rw [this]
        · rw [if_neg hpn]
          rw [List.filter_append]
          have hnil : List.filter (fun f => decide (pm f = some e.packageName)) [file] = [] := by
            simp [hpf]
            intro hcon
            exact hpn hcon.symm
          rw [hnil, List.append_nil]
          exact hreasons e he
    · rw [if_neg hf]
      have hpkgnot : pkg ∉ namesOf acc := fun hx => hf ((find_name_isSome acc pkg).mpr hx)
      have hnames : namesOf (acc ++ [Change.mk pkg [reasonForFile file]]) =
          namesOf acc ++ [pkg] := by
        rw [namesOf_append]
        rfl
      refine ⟨?_, ?_, ?_⟩
      · rw [hnames, List.nodup_append]
        refine ⟨hnodup, List.nodup_singleton _, ?_⟩
        intro n hn hn1
        rcases List.mem_singleton.mp hn1 with rfl
        exact hpkgnot hn
      · intro n
        rw [hnames]
        constructor
        · intro hn
          rcases List.mem_append.mp hn with hn1 | hn1
          · rcases (hmem n).mp hn1 with ⟨f, hf1, hfn⟩
            exact ⟨f, List.mem_append_left _ hf1, hfn⟩
          · rcases List.mem_singleton.mp hn1 with rfl
            exact ⟨file, List.mem_append_right _ (List.mem_singleton.mpr rfl), hpf⟩
        · rintro ⟨f, hf1, hfn⟩
          rcases List.mem_append.mp hf1 with hf2 | hf2
          · exact List.mem_append_left _ ((hmem n).mpr ⟨f, hf2, hfn⟩)
          · rcases List.mem_singleton.mp hf2 with rfl
            rw [hpf] at hfn
            rcases Option.some.inj hfn with rfl
            exact List.mem_append_right _ (List.mem_singleton.mpr rfl)
      · intro c hc
        rcases List.mem_append.mp hc with hc1 | hc1
        · have hcn : c.packageName ≠ pkg := by
            intro hx
            exact hpkgnot (hx ▸ List.mem_map.mpr ⟨c, hc1, rfl⟩)
          rw [List.filter_append]
          have hnil : List.filter (fun f => decide (pm f = some c.packageName)) [file] = [] := by
            simp [hpf]
            intro hcon
            exact hcn hcon.symm
          rw [hnil, List.append_nil]
          exact hreasons c hc1
        · rcases List.mem_singleton.mp hc1 with rfl
          rw [List.filter_append]
          have hnil : List.filter
              (fun f => decide (pm f = some (Change.mk pkg [reasonForFile file]).packageName))
              files = [] := by
            rw [List.filter_eq_nil_iff]
            intro f hf1 hfd
            have : pkg ∈ namesOf acc := (hmem pkg).mpr ⟨f, hf1, of_decide_eq_true hfd⟩
            exact hpkgnot this
          rw [hnil, List.nil_append]
          simp [hpf]

theorem fileFold_inv (pm : String → Option Ident) :
    ∀ (rest : List String) (acc : List Change) (files : List String),
      FileInv pm acc files →
      FileInv pm (rest.foldl (fileChangeStep pm) acc) (files ++ rest) := by
  intro rest
  induction rest with
  | nil => intro acc files h; simpa using h
  | cons file rest2 ih =>
    intro acc files h
    rw [List.foldl_cons]
    have h2 := fileStep_inv pm acc files file h
    have h3 := ih (fileChangeStep pm acc file) (files ++ [file]) h2
    simpa [List.append_assoc] using h3

/-- Claim C6: the file-to-unit mapper emits exactly one change record per unit
owning at least one dirty file (names are unique and a name appears iff some
dirty file maps to it), the reason list of each record has one entry per
matching dirty file in dirty-list order, and unmapped files contribute
nothing. -/
theorem affectedByFileChanges_spec (pkgs : List Package) (dirtyFiles : List String) :
    (namesOf (affectedPackagesByFileChanges pkgs dirtyFiles)).Nodup ∧
    (∀ n, n ∈ namesOf (affectedPackagesByFileChanges pkgs dirtyFiles) ↔
      ∃ f ∈ dirtyFiles, mapPackagesByFile pkgs f = some n) ∧
    (∀ c ∈ affectedPackagesByFileChanges pkgs dirtyFiles, c.reasons =
      (dirtyFiles.filter fun f =>
        decide (mapPackagesByFile pkgs f = some c.packageName)).map reasonForFile) := by
  have hbase : FileInv (mapPackagesByFile pkgs) [] [] := by
    refine ⟨by simp [namesOf], ?_, ?_⟩
    · intro n
      simp [namesOf]
    · intro c hc
      simp at hc
  have h := fileFold_inv (mapPackagesByFile pkgs) dirtyFiles [] [] hbase
  simpa [affectedPackagesByFileChanges, FileInv] using h

def pkgsC6 : List Package :=
  [⟨"/src/a", ["f1.go", "f2.go"], "m/a", [], [], [], []⟩,
   ⟨"/src/b", ["g.go"], "m/b", ["m/a"], [], [], []⟩]

def dirtyC6 : List String := ["/src/a/f1.go", "/src/other.txt", "/src/a/f2.go"]

theorem affectedByFileChanges_witness :
    (Change.mk "m/a" [reasonForFile "/src/a/f1.go", reasonForFile "/src/a/f2.go"]).reasons =
      (dirtyC6.filter fun f =>
        decide (mapPackagesByFile pkgsC6 f =
          some (Change.mk "m/a" [reasonForFile "/src/a/f1.go",
            reasonForFile "/src/a/f2.go"]).packageName)).map reasonForFile :=
  (affectedByFileChanges_spec pkgsC6 dirtyC6).2.2 _ (by decide)

/- ------------------------------------------------------------------
4.5/4.6 Reverse-graph propagator and report assembler:
propagateAffectedPackages (rippler.go, lines 455-501).
------------------------------------------------------------------ -/

/-- The combined import list append(append(Imports, TestImports...),
XTestImports...). -/
def combinedImports (p : Package) : List Ident :=
  (p.imports ++ p.testImports) ++ p.xtestImports

/-- One Go map append dependents[imp] = append(dependents[imp], dep);
the map of slices is modeled as a function into lists. -/
def addDependent (m : Ident → List Ident) (imp dep : Ident) : Ident → List Ident :=
  fun i => if i = imp then m i ++ [dep] else m i

/-- The reverse adjacency map built by the first loop of
propagateAffectedPackages. -/
def buildDependents (pkgs : List Package) : Ident → List Ident :=
  pkgs.foldl
    (fun m p => (combinedImports p).foldl (fun m imp => addDependent m imp p.importPath) m)
    (fun _ => [])

theorem mem_addDependent (m : Ident → List Ident) (imp dep i x : Ident) :
    x ∈ addDependent m imp dep i ↔ x ∈ m i ∨ (i = imp ∧ x = dep) := by
  unfold addDependent
  by_cases h : i = imp
  · rw [if_pos h]
    constructor
    · intro hm
      rcases List.mem_append.mp hm with h1 | h1
      · exact Or.inl h1
      · exact Or.inr ⟨h, List.mem_singleton.mp h1⟩
    · intro hm
      rcases hm with h1 | ⟨_, rfl⟩
      · exact List.mem_append_left _ h1
      · exact List.mem_append_right _ (List.mem_singleton.mpr rfl)
  · rw [if_neg h]
    constructor
    · exact Or.inl
    · intro hm
      rcases hm with h1 | ⟨hi, _⟩
      · exact h1
      · exact absurd hi h

theorem mem_addDependent_fold (dep : Ident) :
    ∀ (imps : List Ident) (m : Ident → List Ident) (i x : Ident),
      x ∈ (imps.foldl (fun m imp => addDependent m imp dep) m) i ↔
        x ∈ m i ∨ (i ∈ imps ∧ x = dep) := by
  intro imps
  induction imps with
  | nil => simp
  | cons imp rest ih =>
    intro m i x
    rw [List.foldl_cons, ih, mem_addDependent]
    constructor
    · rintro ((h1 | ⟨rfl, rfl⟩) | ⟨h2, rfl⟩)
      · exact Or.inl h1
      · exact Or.inr ⟨List.mem_cons_self _ _, rfl⟩
      · exact Or.inr ⟨List.mem_cons_of_mem _ h2, rfl⟩
    · rintro (h1 | ⟨h2, rfl⟩)
      · exact Or.inl (Or.inl h1)
      · rcases List.mem_cons.mp h2 with rfl | h3
        · exact Or.inl (Or.inr ⟨rfl, rfl⟩)
        · exact Or.inr ⟨h3, rfl⟩

theorem mem_buildDependents_fold :
    ∀ (pkgs : List Package) (m : Ident → List Ident) (i x : Ident),
      x ∈ (pkgs.foldl
        (fun m p => (combinedImports p).foldl (fun m imp => addDependent m imp p.importPath) m)
        m) i ↔
      x ∈ m i ∨ ∃ p ∈ pkgs, i ∈ combinedImports p ∧ x = p.importPath := by
  intro pkgs
  induction pkgs with
  | nil => simp
  | cons p rest ih =>
    intro m i x
    rw [List.foldl_cons, ih, mem_addDependent_fold]
    constructor
    · rintro ((h1 | ⟨h2, rfl⟩) | ⟨q, hq, hqi, rfl⟩)
      · exact Or.inl h1
      · exact Or.inr ⟨p, List.mem_cons_self _ _, h2, rfl⟩
      · exact Or.inr ⟨q, List.mem_cons_of_mem _ hq, hqi, rfl⟩
    · rintro (h1 | ⟨q, hq, hqi, rfl⟩)
      · exact Or.inl (Or.inl h1)
      · rcases List.mem_cons.mp hq with rfl | h3
        · exact Or.inl (Or.inr ⟨hqi, rfl⟩)
        · exact Or.inr ⟨q, h3, hqi, rfl⟩

theorem mem_buildDependents (pkgs : List Package) (i x : Ident) :
    x ∈ buildDependents pkgs i ↔
      ∃ p ∈ pkgs, i ∈ combinedImports p ∧ x = p.importPath := by
  rw [buildDependents, mem_buildDependents_fold]
  simp

/-- The inner loop of the BFS: for each dependent of the popped element, if
it is not yet in the affected map, add it to the map and to the queue. -/
def bfsStep : List Ident → List Ident → List Ident → List Ident × List Ident
  | [], visited, queue => (visited, queue)
  | dep :: deps, visited, queue =>
    if dep ∈ visited then bfsStep deps visited queue
    else bfsStep deps (visited ++ [dep]) (queue ++ [dep])

/-- The BFS worklist loop of propagateAffectedPackages. The Go loop has no
fuel; the caller passes a fuel that is provably enough for the queue to
drain (bfsAux_mem below shows the result is then the reachability closure). -/
def bfsAux (d : Ident → List Ident) : Nat → List Ident → List Ident → List Ident
  | _, [], visited => visited
  | 0, _ :: _, visited => visited
  | fuel + 1, current :: rest, visited =>
    let vq := bfsStep (d current) visited rest
    bfsAux d fuel vq.2 vq.1

theorem bfsStep_spec :
    ∀ (deps visited queue : List Ident),
      ∃ news : List Ident,
        bfsStep deps visited queue = (visited ++ news, queue ++ news) ∧
        news.Nodup ∧
        (∀ n ∈ news, n ∈ deps ∧ n ∉ visited) ∧
        (∀ dep ∈ deps, dep ∈ visited ∨ dep ∈ news) := by
  intro deps
  induction deps with
  | nil =>
    intro visited queue
    exact ⟨[], by simp [bfsStep], List.nodup_nil, by simp, by simp⟩
  | cons dep rest ih =>
    intro visited queue
    by_cases h : dep ∈ visited
    · rcases ih visited queue with ⟨news, heq, hnodup, hnews, hcov⟩
      refine ⟨news, ?_, hnodup, ?_, ?_⟩
      · rw [bfsStep, if_pos h]
        exact heq
      · intro n hn
        exact ⟨List.mem_cons_of_mem _ (hnews n hn).1, (hnews n hn).2⟩
      · intro x hx
        rcases List.mem_cons.mp hx with rfl | hx2
        · exact Or.inl h
        · exact hcov x hx2
    · rcases ih (visited ++ [dep]) (queue ++ [dep]) with ⟨news, heq, hnodup, hnews, hcov⟩
      refine ⟨dep :: news, ?_, ?_, ?_, ?_⟩
      · rw [bfsStep, if_neg h, heq]
        have hl : visited ++ [dep] ++ news = visited ++ dep :: news := by
          rw [List.append_assoc]
          rfl
        have hq2 : queue ++ [dep] ++ news = queue ++ dep :: news := by
          rw [List.append_assoc]
          rfl
        rw [hl, hq2]
      · rw [List.nodup_cons]
        refine ⟨?_, hnodup⟩
        intro hd
        exact (hnews dep hd).2 (List.mem_append_right _ (List.mem_singleton.mpr rfl))
      · intro n hn
        rcases List.mem_cons.mp hn with rfl | hn2
        · exact ⟨List.mem_cons_self _ _, h⟩
        · refine ⟨List.mem_cons_of_mem _ (hnews n hn2).1, ?_⟩
          intro hv
          exact (hnews n hn2).2 (List.mem_append_left _ hv)
      · intro x hx
        rcases List.mem_cons.mp hx with rfl | hx2
        · exact Or.inr (List.mem_cons_self _ _)
        · rcases hcov x hx2 with h1 | h1
          · rcases List.mem_append.mp h1 with h2 | h2
            · exact Or.inl h2
            · rcases List.mem_singleton.mp h2 with rfl
              exact Or.inr (List.mem_cons_self _ _)
          · exact Or.inr (List.mem_cons_of_mem _ h1)

/-- The number of elements of the import-path multiset of the inventory not yet
marked affected (the decreasing part of the loop measure). -/
def unvisitedCount (uni visited : List Ident) : Nat :=
  uni.countP fun u => decide (u ∉ visited)

theorem unvisited_insert (uni : List Ident) :
    ∀ (visited : List Ident) (n : Ident), n ∈ uni → n ∉ visited →
      unvisitedCount uni (visited ++ [n]) + 1 ≤ unvisitedCount uni visited := by
  induction uni with
  | nil => intro visited n hn; exact absurd hn (List.not_mem_nil n)
  | cons x us ih =>
    intro visited n hn hv
    unfold unvisitedCount at *
    rw [List.countP_cons, List.countP_cons]
    rcases List.mem_cons.mp hn with rfl | hn2
    · have h1 : decide (n ∉ visited ++ [n]) = false := by
        simp
      have h2 : decide (n ∉ visited) = true := by
        simp [hv]
      rw [h1, h2]
      have hz : (if false = true then 1 else 0) = 0 := rfl
      have ho : (if true = true then 1 else 0) = 1 := rfl
      rw [hz, ho]
      have hmono : List.countP (fun u => decide (u ∉ visited ++ [n])) us ≤
          List.countP (fun u => decide (u ∉ visited)) us := by
        apply List.countP_mono_left
        intro a _ ha
        have := of_decide_eq_true ha
        refine decide_eq_true ?_
        intro hav
        exact this (List.mem_append_left _ hav)
      omega
    · have hle := ih visited n hn2 hv
      have hcontrib : (if decide (x ∉ visited ++ [n]) = true then 1 else 0) ≤
          (if decide (x ∉ visited) = true then 1 else 0) := by
        by_cases hx : decide (x ∉ visited ++ [n]) = true
        · have := of_decide_eq_true hx
          have hx2 : decide (x ∉ visited) = true := by
            refine decide_eq_true ?_
            intro hav
            exact this (List.mem_append_left _ hav)
          rw [if_pos hx, if_pos hx2]
        · rw [if_neg hx]
          omega
      omega

theorem unvisited_news (uni : List Ident) :
    ∀ (news visited : List Ident), news.Nodup →
      (∀ n ∈ news, n ∈ uni ∧ n ∉ visited) →
      news.length + unvisitedCount uni (visited ++ news) ≤ unvisitedCount uni visited := by
  intro news
  induction news with
  | nil =>
    intro visited _ _
    simp
  | cons n ns ih =>
    intro visited hnodup hin
    have h1 : unvisitedCount uni ((visited ++ [n]) ++ ns) + ns.length ≤
        unvisitedCount uni (visited ++ [n]) := by
      have := ih (visited ++ [n]) (List.nodup_cons.mp hnodup).2 ?_
      · omega
      · intro m hm
        refine ⟨(hin m (List.mem_cons_of_mem _ hm)).1, ?_⟩
        intro hmv
        rcases List.mem_append.mp hmv with h2 | h2
        · exact (hin m (List.mem_cons_of_mem _ hm)).2 h2
        · rcases List.mem_singleton.mp h2 with rfl
          exact (List.nodup_cons.mp hnodup).1 hm
    have h2 : unvisitedCount uni (visited ++ [n]) + 1 ≤ unvisitedCount uni visited :=
      unvisited_insert uni visited n (hin n (List.mem_cons_self _ _)).1
        (hin n (List.mem_cons_self _ _)).2
    have h3 : visited ++ n :: ns = (visited ++ [n]) ++ ns := by
      rw [List.append_assoc]
      rfl
    rw [List.length_cons, h3]
    omega

theorem rtg_closed (d : Ident → List Ident) (visited : List Ident)
    (hclosed : ∀ v ∈ visited, ∀ dep ∈ d v, dep ∈ visited) :
    ∀ s x, s ∈ visited → Relation.ReflTransGen (fun a b => b ∈ d a) s x → x ∈ visited := by
  intro s x hs h
  induction h with
  | refl => exact hs
  | tail _ hedge ih => exact hclosed _ ih _ hedge

theorem bfs_empty_iff (d : Ident → List Ident) (visited : List Ident)
    (hclosed : ∀ v ∈ visited, ∀ dep ∈ d v, dep ∈ visited) (x : Ident) :
    x ∈ visited ↔
      ∃ s ∈ visited, Relation.ReflTransGen (fun a b => b ∈ d a) s x := by
  constructor
  · intro hx
    exact ⟨x, hx, Relation.ReflTransGen.refl⟩
  · rintro ⟨s, hs, hr⟩
    exact rtg_closed d visited hclosed s x hs hr

/-- Correctness of the BFS loop: with enough fuel, the final affected map is
exactly the set of identifiers reachable along reverse-import edges from the
initially marked set. -/
theorem bfsAux_mem (d : Ident → List Ident) (uni : List Ident)
    (hd : ∀ a x, x ∈ d a → x ∈ uni) :
    ∀ (fuel : Nat) (queue visited : List Ident),
      queue.length + unvisitedCount uni visited ≤ fuel →
      (∀ q ∈ queue, q ∈ visited) →
      (∀ v ∈ visited, v ∈ queue ∨ ∀ dep ∈ d v, dep ∈ visited) →
      ∀ x, x ∈ bfsAux d fuel queue visited ↔
        ∃ s ∈ visited, Relation.ReflTransGen (fun a b => b ∈ d a) s x := by
  intro fuel
  induction fuel with
  | zero =>
    intro queue visited hfuel hqv hproc x
    rcases queue with _ | ⟨current, rest⟩
    · rw [bfsAux]
      apply bfs_empty_iff
      intro v hv
      rcases hproc v hv with h1 | h1
      · exact absurd h1 (List.not_mem_nil v)
      · exact h1
    · exfalso
      rw [List.length_cons] at hfuel
      omega
  | succ fuel ih =>
    intro queue visited hfuel hqv hproc x
    rcases queue with _ | ⟨current, rest⟩
    · rw [bfsAux]
      apply bfs_empty_iff
      intro v hv
      rcases hproc v hv with h1 | h1
      · exact absurd h1 (List.not_mem_nil v)
      · exact h1
    · rcases bfsStep_spec (d current) visited rest with ⟨news, heq, hnodup, hnews, hcov⟩
      have hrun : bfsAux d (fuel + 1) (current :: rest) visited =
          bfsAux d fuel (rest ++ news) (visited ++ news) := by
        rw [bfsAux]
        rw [heq]
      rw [hrun]
      have hnews2 : ∀ n ∈ news, n ∈ uni ∧ n ∉ visited := by
        intro n hn
        exact ⟨hd current n (hnews n hn).1, (hnews n hn).2⟩
      have hfuel2 : (rest ++ news).length + unvisitedCount uni (visited ++ news) ≤ fuel := by
        have hkey := unvisited_news uni news visited hnodup hnews2
        rw [List.length_append]
        rw [List.length_cons] at hfuel
        omega
      have hqv2 : ∀ q ∈ rest ++ news, q ∈ visited ++ news := by
        intro q hq
        rcases List.mem_append.mp hq with h1 | h1
        · exact List.mem_append_left _ (hqv q (List.mem_cons_of_mem _ h1))
        · exact List.mem_append_right _ h1
      have hproc2 : ∀ v ∈ visited ++ news,
          v ∈ rest ++ news ∨ ∀ dep ∈ d v, dep ∈ visited ++ news := by
        intro v hv
        rcases List.mem_append.mp hv with h1 | h1
        · rcases hproc v h1 with h2 | h2
          · rcases List.mem_cons.mp h2 with rfl | h3
            · refine Or.inr ?_
              intro dep hdep
              rcases hcov dep hdep with h4 | h4
              · exact List.mem_append_left _ h4
              · exact List.mem_append_right _ h4
            · exact Or.inl (List.mem_append_left _ h3)
          · refine Or.inr ?_
            intro dep hdep
            exact List.mem_append_left _ (h2 dep hdep)
        · exact Or.inl (List.mem_append_right _ h1)
      rw [ih (rest ++ news) (visited ++ news) hfuel2 hqv2 hproc2 x]
      constructor
      · rintro ⟨s, hs, hr⟩
        rcases List.mem_append.mp hs with h1 | h1
        · exact ⟨s, h1, hr⟩
        · refine ⟨current, hqv current (List.mem_cons_self _ _), ?_⟩
          exact Relation.ReflTransGen.head (hnews s h1).1 hr
      · rintro ⟨s, hs, hr⟩
        exact ⟨s, List.mem_append_left _ hs, hr⟩

theorem bfsAux_nodup (d : Ident → List Ident) :
    ∀ (fuel : Nat) (queue visited : List Ident),
      visited.Nodup → (bfsAux d fuel queue visited).Nodup := by
  intro fuel
  induction fuel with
  | zero =>
    intro queue visited h
    rcases queue with _ | ⟨current, rest⟩ <;> rw [bfsAux] <;> exact h
  | succ fuel ih =>
    intro queue visited h
    rcases queue with _ | ⟨current, rest⟩
    · rw [bfsAux]
      exact h
    · rcases bfsStep_spec (d current) visited rest with ⟨news, heq, hnodup, hnews, _⟩
      have hrun : bfsAux d (fuel + 1) (current :: rest) visited =
          bfsAux d fuel (rest ++ news) (visited ++ news) := by
        rw [bfsAux]
        rw [heq]
      rw [hrun]
      apply ih
      rw [List.nodup_append]
      refine ⟨h, hnodup, ?_⟩
      intro a ha ha2
      exact (hnews a ha2).2 ha

/-- One iteration of the loop building initialMap from report.Changes; the
Go set-valued map keyed by package name is modeled as a duplicate-free list
in first-insertion order. -/
def initStep (m : List Ident) (c : Change) : List Ident :=
  if c.packageName ∈ m then m else m ++ [c.packageName]

/-- The initial affected set: the package names of the reconciled changes. -/
def initialNames (changes : List Change) : List Ident :=
  changes.foldl initStep []

theorem mem_initStep (m : List Ident) (c : Change) (x : Ident) :
    x ∈ initStep m c ↔ x ∈ m ∨ x = c.packageName := by
  unfold initStep
  by_cases h : c.packageName ∈ m
  · rw [if_pos h]
    constructor
    · exact Or.inl
    · rintro (h1 | rfl)
      · exact h1
      · exact h
  · rw [if_neg h]
    constructor
    · intro h1
      rcases List.mem_append.mp h1 with h2 | h2
      · exact Or.inl h2
      · exact Or.inr (List.mem_singleton.mp h2)
    · rintro (h1 | rfl)
      · exact List.mem_append_left _ h1
      · exact List.mem_append_right _ (List.mem_singleton.mpr rfl)

theorem mem_initialNames_fold :
    ∀ (l : List Change) (acc : List Ident) (x : Ident),
      x ∈ l.foldl initStep acc ↔ x ∈ acc ∨ x ∈ namesOf l := by
  intro l
  induction l with
  | nil =>
    intro acc x
    simp [namesOf]
  | cons c rest ih =>
    intro acc x
    rw [List.foldl_cons, ih, mem_initStep]
    have hn : x ∈ namesOf (c :: rest) ↔ x = c.packageName ∨ x ∈ namesOf rest := by
      simp [namesOf]
    rw [hn]
    tauto

theorem mem_initialNames (changes : List Change) (x : Ident) :
    x ∈ initialNames changes ↔ x ∈ namesOf changes := by
  rw [initialNames, mem_initialNames_fold]
  simp

theorem initStep_nodup (m : List Ident) (c : Change) (h : m.Nodup) :
    (initStep m c).Nodup := by
  unfold initStep
  by_cases hc : c.packageName ∈ m
  · rw [if_pos hc]
    exact h
  · rw [if_neg hc]
    rw [List.nodup_append]
    refine ⟨h, List.nodup_singleton _, ?_⟩
    intro a ha ha2
    rcases List.mem_singleton.mp ha2 with rfl
    exact hc ha

theorem initialNames_nodup_fold :
    ∀ (l : List Change) (acc : List Ident), acc.Nodup → (l.foldl initStep acc).Nodup := by
  intro l
  induction l with
  | nil =>
    intro acc h
    exact h
  | cons c rest ih =>
    intro acc h
    rw [List.foldl_cons]
    exact ih _ (initStep_nodup acc c h)

theorem initialNames_nodup (changes : List Change) : (initialNames changes).Nodup :=
  initialNames_nodup_fold changes [] List.nodup_nil

/-- The reverse-import edge relation: importedBy pkgs a b holds when some
inventory unit b lists a among its combined imports. -/
def importedBy (pkgs : List Package) (a b : Ident) : Prop :=
  ∃ p ∈ pkgs, p.importPath = b ∧ a ∈ combinedImports p

instance (pkgs : List Package) (a b : Ident) : Decidable (importedBy pkgs a b) := by
  unfold importedBy
  infer_instance

theorem edge_iff (pkgs : List Package) (a b : Ident) :
    b ∈ buildDependents pkgs a ↔ importedBy pkgs a b := by
  rw [mem_buildDependents]
  unfold importedBy
  constructor
  · rintro ⟨p, hp, hi, rfl⟩
    exact ⟨p, hp, rfl, hi⟩
  · rintro ⟨p, hp, rfl, hi⟩
    exact ⟨p, hp, hi, rfl⟩

theorem rtg_edge_iff (pkgs : List Package) (s x : Ident) :
    Relation.ReflTransGen (fun a b => b ∈ buildDependents pkgs a) s x ↔
      Relation.ReflTransGen (importedBy pkgs) s x :=
  ⟨Relation.ReflTransGen.mono fun a b => (edge_iff pkgs a b).mp,
   Relation.ReflTransGen.mono fun a b => (edge_iff pkgs a b).mpr⟩

/-- The final affected map computed by the BFS of propagateAffectedPackages.
The enumeration e1 models the Go map iteration that seeds the queue; the
fuel passed is queue length plus inventory size, which bfsAux_mem shows is
enough for the loop to drain. -/
def propagateFinal (e1 : List Ident → List Ident) (report : Report) : List Ident :=
  bfsAux (buildDependents report.allPackages)
    ((e1 (initialNames report.changes)).length +
      (report.allPackages.map (·.importPath)).length)
    (e1 (initialNames report.changes))
    (initialNames report.changes)

/-- propagateAffectedPackages: BFS closure, AffectedPackage assembly with
indirect := !strings.HasPrefix(pkg, module path), and the final ascending
sort by byte-wise comparison (slices.SortFunc with strings.Compare). The
enumerations e1/e2 model the two Go map iterations; a real run corresponds
to enumerations that permute the key set. -/
def propagateA (e1 e2 : List Ident → List Ident) (report : Report) : List AffectedPackage :=
  List.insertionSort (fun a b => a.importPath.data ≤ b.importPath.data)
    ((e2 (propagateFinal e1 report)).map fun pkg =>
      AffectedPackage.mk pkg (! goStartsWith pkg report.goMod.module.path))

theorem propagateFinal_mem (e1 : List Ident → List Ident)
    (h1 : ∀ l, List.Perm (e1 l) l) (report : Report) (x : Ident) :
    x ∈ propagateFinal e1 report ↔
      ∃ s ∈ namesOf report.changes,
        Relation.ReflTransGen (importedBy report.allPackages) s x := by
  unfold propagateFinal
  have hd : ∀ a y, y ∈ buildDependents report.allPackages a →
      y ∈ report.allPackages.map (·.importPath) := by
    intro a y hy
    rcases (mem_buildDependents report.allPackages a y).mp hy with ⟨p, hp, _, rfl⟩
    exact List.mem_map.mpr ⟨p, hp, rfl⟩
  have hfuel : (e1 (initialNames report.changes)).length +
      unvisitedCount (report.allPackages.map (·.importPath)) (initialNames report.changes) ≤
      (e1 (initialNames report.changes)).length +
        (report.allPackages.map (·.importPath)).length :=
    Nat.add_le_add_left (List.countP_le_length _) _
  have hqv : ∀ q ∈ e1 (initialNames report.changes), q ∈ initialNames report.changes := by
    intro q hq
    exact (h1 (initialNames report.changes)).mem_iff.mp hq
  have hproc : ∀ v ∈ initialNames report.changes,
      v ∈ e1 (initialNames report.changes) ∨
        ∀ dep ∈ buildDependents report.allPackages v,
          dep ∈ initialNames report.changes := by
    intro v hv
    exact Or.inl ((h1 (initialNames report.changes)).mem_iff.mpr hv)
  rw [bfsAux_mem (buildDependents report.allPackages)
    (report.allPackages.map (·.importPath)) hd _ _ _ hfuel hqv hproc x]
  constructor
  · rintro ⟨s, hs, hr⟩
    exact ⟨s, (mem_initialNames report.changes s).mp hs,
      (rtg_edge_iff report.allPackages s x).mp hr⟩
  · rintro ⟨s, hs, hr⟩
    exact ⟨s, (mem_initialNames report.changes s).mpr hs,
      (rtg_edge_iff report.allPackages s x).mpr hr⟩

theorem propagateFinal_nodup (e1 : List Ident → List Ident) (report : Report) :
    (propagateFinal e1 report).Nodup := by
  unfold propagateFinal
  exact bfsAux_nodup _ _ _ _ (initialNames_nodup report.changes)

theorem propagateA_mem (e1 e2 : List Ident → List Ident)
    (h1 : ∀ l, List.Perm (e1 l) l) (h2 : ∀ l, List.Perm (e2 l) l)
    (report : Report) (x : Ident) :
    (∃ u ∈ propagateA e1 e2 report, u.importPath = x) ↔
      ∃ s ∈ namesOf report.changes,
        Relation.ReflTransGen (importedBy report.allPackages) s x := by
  unfold propagateA
  constructor
  · rintro ⟨u, hu, rfl⟩
    have hu2 := (List.perm_insertionSort _ _).mem_iff.mp hu
    rcases List.mem_map.mp hu2 with ⟨pkg, hpkg, rfl⟩
    have hf : pkg ∈ propagateFinal e1 report :=
      (h2 (propagateFinal e1 report)).mem_iff.mp hpkg
    exact (propagateFinal_mem e1 h1 report pkg).mp hf
  · intro hx
    have hf : x ∈ propagateFinal e1 report := (propagateFinal_mem e1 h1 report x).mpr hx
    have hx2 : x ∈ e2 (propagateFinal e1 report) :=
      (h2 (propagateFinal e1 report)).mem_iff.mpr hf
    refine ⟨AffectedPackage.mk x (! goStartsWith x report.goMod.module.path), ?_, rfl⟩
    exact (List.perm_insertionSort _ _).mem_iff.mpr (List.mem_map.mpr ⟨x, hx2, rfl⟩)

theorem propagateA_indirect (e1 e2 : List Ident → List Ident) (report : Report) :
    ∀ u ∈ propagateA e1 e2 report,
      u.indirect = ! goStartsWith u.importPath report.goMod.module.path := by
  intro u hu
  unfold propagateA at hu
  have hu2 := (List.perm_insertionSort _ _).mem_iff.mp hu
  rcases List.mem_map.mp hu2 with ⟨pkg, _, rfl⟩
  rfl

theorem propagateA_pairwise (e1 e2 : List Ident → List Ident)
    (h2 : ∀ l, List.Perm (e2 l) l) (report : Report) :
    List.Pairwise (fun a b : AffectedPackage => a.importPath.data < b.importPath.data)
      (propagateA e1 e2 report) := by
  haveI hTot : IsTotal AffectedPackage
      (fun a b => a.importPath.data ≤ b.importPath.data) :=
    ⟨fun a b => le_total _ _⟩
  haveI hTrans : IsTrans AffectedPackage
      (fun a b => a.importPath.data ≤ b.importPath.data) :=
    ⟨fun a b c hab hbc => le_trans hab hbc⟩
  have hsorted := List.sorted_insertionSort
    (fun a b : AffectedPackage => a.importPath.data ≤ b.importPath.data)
    ((e2 (propagateFinal e1 report)).map fun pkg =>
      AffectedPackage.mk pkg (! goStartsWith pkg report.goMod.module.path))
  have hkeysnodup : ((propagateA e1 e2 report).map (·.importPath)).Nodup := by
    have hn1 : (e2 (propagateFinal e1 report)).Nodup :=
      (propagateFinal_nodup e1 report).perm (h2 (propagateFinal e1 report)).symm
    have hmapkeys : ((e2 (propagateFinal e1 report)).map fun pkg =>
        AffectedPackage.mk pkg (! goStartsWith pkg report.goMod.module.path)).map (·.importPath) =
        e2 (propagateFinal e1 report) := by
      rw [List.map_map]
      exact List.map_id _
    have hperm : List.Perm ((propagateA e1 e2 report).map (·.importPath))
        (e2 (propagateFinal e1 report)) := by
      rw [← hmapkeys]
      exact (List.perm_insertionSort _ _).map _
    exact hn1.perm hperm.symm
  have hne : List.Pairwise (fun a b : AffectedPackage => a.importPath ≠ b.importPath)
      (propagateA e1 e2 report) := by
    have hpw2 : List.Pairwise (fun a b : String => a ≠ b)
        ((propagateA e1 e2 report).map (·.importPath)) := hkeysnodup
    rw [List.pairwise_map] at hpw2
    exact hpw2
  have hle : List.Pairwise (fun a b : AffectedPackage => a.importPath.data ≤ b.importPath.data)
      (propagateA e1 e2 report) := hsorted
  have hand := List.Pairwise.and hle hne
  exact hand.imp fun h => lt_of_le_of_ne h.1 fun hdata => h.2 (string_data_inj hdata)

/- ------------------------------------------------------------------
Claims C1, C2, C3, C7, C8 about the propagator.
------------------------------------------------------------------ -/

def reportA : Report :=
  ⟨⟨⟨"m", "", false⟩, "1.22", [], [], [], []⟩, [],
    [⟨"/src/a", ["a.go"], "m/a", [], [], [], []⟩,
     ⟨"/src/b", ["b.go"], "m/b", ["m/a"], [], [], []⟩,
     ⟨"/src/c", ["c.go"], "m/c", ["m/b"], [], [], []⟩],
    [],
    [⟨"m/a", ["file a.go has changed"]⟩]⟩

/-- Claim C2: for permutation-valid map enumerations, the identifiers in the
propagator output are exactly the identifiers reachable from the reconciled
change set along zero or more reverse-import edges (edges built from the
union of ordinary, test-internal and test-external imports); in particular
the output covers the change set. -/
theorem propagate_closure (e1 e2 : List Ident → List Ident)
    (h1 : ∀ l, List.Perm (e1 l) l) (h2 : ∀ l, List.Perm (e2 l) l) (report : Report) :
    (∀ x, (∃ u ∈ propagateA e1 e2 report, u.importPath = x) ↔
      ∃ c ∈ report.changes,
        Relation.ReflTransGen (importedBy report.allPackages) c.packageName x) ∧
    (∀ c ∈ report.changes, ∃ u ∈ propagateA e1 e2 report, u.importPath = c.packageName) := by
  have hmem := propagateA_mem e1 e2 h1 h2 report
  constructor
  · intro x
    rw [hmem x]
    constructor
    · rintro ⟨s, hs, hr⟩
      rcases List.mem_map.mp hs with ⟨c, hc, rfl⟩
      exact ⟨c, hc, hr⟩
    · rintro ⟨c, hc, hr⟩
      exact ⟨c.packageName, List.mem_map.mpr ⟨c, hc, rfl⟩, hr⟩
  · intro c hc
    exact (hmem c.packageName).mpr
      ⟨c.packageName, List.mem_map.mpr ⟨c, hc, rfl⟩, Relation.ReflTransGen.refl⟩

theorem propagate_closure_witness :
    ∃ u ∈ propagateA id id reportA, u.importPath = "m/c" := by
  have h1 : importedBy reportA.allPackages "m/a" "m/b" := by decide
  have h2 : importedBy reportA.allPackages "m/b" "m/c" := by decide
  exact ((propagate_closure id id (fun l => List.Perm.refl l) (fun l => List.Perm.refl l)
      reportA).1 "m/c").mpr
    ⟨⟨"m/a", ["file a.go has changed"]⟩, by decide,
      Relation.ReflTransGen.tail
        (Relation.ReflTransGen.tail Relation.ReflTransGen.refl h1) h2⟩

/-- Claim C1 (amended): every emitted affected unit carries
indirect = !strings.HasPrefix(identifier, moduleIdentifier): the plain
string-prefix test with no requirement that the prefix be followed by a
slash (equality with the module identifier is subsumed by the prefix test). -/
theorem propagate_indirect_spec (e1 e2 : List Ident → List Ident) (report : Report) :
    ∀ u ∈ propagateA e1 e2 report,
      u.indirect = ! goStartsWith u.importPath report.goMod.module.path :=
  propagateA_indirect e1 e2 report

theorem propagate_indirect_witness :
    (AffectedPackage.mk "m/a" false).indirect =
      ! goStartsWith (AffectedPackage.mk "m/a" false).importPath
        reportA.goMod.module.path :=
  propagate_indirect_spec id id reportA (AffectedPackage.mk "m/a" false) (by decide)

def reportC1 : Report :=
  ⟨⟨⟨"m", "", false⟩, "1.22", [], [], [], []⟩, [], [], [], [⟨"mx", ["r"]⟩]⟩

/-- Claim C1 counterexample: with module identifier "m", the affected
identifier "mx" neither starts with "m/" nor equals "m", so the claim
demands indirect = true, but the code emits indirect = false because "mx"
passes the plain prefix test against "m". -/
theorem propagate_indirect_counterexample :
    propagateA id id reportC1 = [AffectedPackage.mk "mx" false] ∧
    goStartsWith "mx" "m/" = false ∧
    decide (("mx" : String) = "m") = false := by
  decide

/-- Claim C3 (amended): a unit that never occurs as a dependent in the
reverse import graph — every inventory package carrying its identifier has
an empty combined import list — and whose identifier is not among the
reconciled change names never appears in the propagator output. -/
theorem propagate_no_false_positive (e1 e2 : List Ident → List Ident)
    (h1 : ∀ l, List.Perm (e1 l) l) (h2 : ∀ l, List.Perm (e2 l) l)
    (report : Report) (x : Ident)
    (himp : ∀ p ∈ report.allPackages, p.importPath = x → combinedImports p = [])
    (hinit : x ∉ namesOf report.changes) :
    ∀ u ∈ propagateA e1 e2 report, u.importPath ≠ x := by
  intro u hu heq
  have hx := (propagateA_mem e1 e2 h1 h2 report x).mp ⟨u, hu, heq⟩
  rcases hx with ⟨s, hs, hr⟩
  rcases Relation.ReflTransGen.cases_tail hr with heq2 | ⟨m, _, hedge⟩
  · rw [heq2] at hinit
    exact hinit hs
  · rcases hedge with ⟨p, hp, hpx, hpm⟩
    have hnil := himp p hp hpx
    rw [hnil] at hpm
    exact List.not_mem_nil m hpm

def reportC3 : Report :=
  ⟨⟨⟨"m", "", false⟩, "1.22", [], [], [], []⟩, [],
    [⟨"/src/b", ["b.go"], "b", ["a"], [], [], []⟩], [],
    [⟨"a", ["r"]⟩]⟩

theorem propagate_no_false_positive_witness :
    (AffectedPackage.mk "a" true).importPath ≠ "z" :=
  propagate_no_false_positive id id (fun l => List.Perm.refl l)
    (fun l => List.Perm.refl l) reportC3 "z" (by decide) (by decide)
    (AffectedPackage.mk "a" true) (by decide)

/-- Claim C3 counterexample: unit b has an empty dependents list in the
reverse import graph (nothing imports b) and is not in the initial change
set, yet it appears in the final affected set, because b itself imports the
changed unit a. -/
theorem propagate_no_false_positive_counterexample :
    buildDependents reportC3.allPackages "b" = [] ∧
    decide (("b" : String) ∈ namesOf reportC3.changes) = false ∧
    AffectedPackage.mk "b" true ∈ propagateA id id reportC3 := by
  decide

/-- Claim C7: the final AffectedPackages list is strictly ascending under
byte-wise lexicographic comparison of import paths, hence its identifiers
are duplicate-free. -/
theorem propagate_sorted_strict (e1 e2 : List Ident → List Ident)
    (h2 : ∀ l, List.Perm (e2 l) l) (report : Report) :
    List.Pairwise (fun a b : AffectedPackage => a.importPath.data < b.importPath.data)
      (propagateA e1 e2 report) ∧
    ((propagateA e1 e2 report).map (·.importPath)).Nodup := by
  have hpw := propagateA_pairwise e1 e2 h2 report
  refine ⟨hpw, ?_⟩
  show List.Pairwise _ _
  rw [List.pairwise_map]
  exact hpw.imp fun h heq => absurd h (by rw [heq]; exact lt_irrefl _)

theorem propagate_sorted_witness :
    List.Pairwise (fun a b : AffectedPackage => a.importPath.data < b.importPath.data)
      (propagateA id id reportA) ∧
    ((propagateA id id reportA).map (·.importPath)).Nodup :=
  propagate_sorted_strict id id (fun l => List.Perm.refl l) reportA

/-- Claim C8: the sorted affected-package output is a deterministic function
of the inputs: for the same manifest and inventory, the same change-name
set (in any order) and any permutation-valid resolutions of the Go map
iteration orders, the output lists are equal element for element. -/
theorem propagate_deterministic (gm : GoMod) (pkgs : List Package)
    (df1 df2 : List String) (ap1 ap2 : List AffectedPackage)
    (chs1 chs2 : List Change) (e1 f1 e2 f2 : List Ident → List Ident)
    (he1 : ∀ l, List.Perm (e1 l) l) (hf1 : ∀ l, List.Perm (f1 l) l)
    (he2 : ∀ l, List.Perm (e2 l) l) (hf2 : ∀ l, List.Perm (f2 l) l)
    (hnames : ∀ n, n ∈ namesOf chs1 ↔ n ∈ namesOf chs2) :
    propagateA e1 f1 (Report.mk gm df1 pkgs ap1 chs1) =
      propagateA e2 f2 (Report.mk gm df2 pkgs ap2 chs2) := by
  have hfin : ∀ x, x ∈ propagateFinal e1 (Report.mk gm df1 pkgs ap1 chs1) ↔
      x ∈ propagateFinal e2 (Report.mk gm df2 pkgs ap2 chs2) := by
    intro x
    rw [propagateFinal_mem e1 he1 _ x, propagateFinal_mem e2 he2 _ x]
    constructor
    · rintro ⟨s, hs, hr⟩
      exact ⟨s, (hnames s).mp hs, hr⟩
    · rintro ⟨s, hs, hr⟩
      exact ⟨s, (hnames s).mpr hs, hr⟩
  have hpermfin : List.Perm (propagateFinal e1 (Report.mk gm df1 pkgs ap1 chs1))
      (propagateFinal e2 (Report.mk gm df2 pkgs ap2 chs2)) :=
    (List.perm_ext_iff_of_nodup (propagateFinal_nodup e1 _)
      (propagateFinal_nodup e2 _)).mpr hfin
  have hout : List.Perm (propagateA e1 f1 (Report.mk gm df1 pkgs ap1 chs1))
      (propagateA e2 f2 (Report.mk gm df2 pkgs ap2 chs2)) := by
    unfold propagateA
    refine ((List.perm_insertionSort _ _).trans ?_).trans
      (List.perm_insertionSort _ _).symm
    refine ((hf1 _).map _).trans (((hpermfin.map _).trans ?_))
    exact ((hf2 _).map _).symm
  haveI hAnti : IsAntisymm AffectedPackage
      (fun a b => a.importPath.data < b.importPath.data) :=
    ⟨fun a b h1 h2 => absurd h2 (lt_asymm h1)⟩
  exact List.eq_of_perm_of_sorted hout
    (propagateA_pairwise e1 f1 hf1 _) (propagateA_pairwise e2 f2 hf2 _)

def gmW : GoMod := ⟨⟨"m", "", false⟩, "1.22", [], [], [], []⟩

def pkgsW : List Package := [⟨"/src/b", ["b.go"], "m/b", ["a"], [], [], []⟩]

def chsW1 : List Change := [⟨"a", ["r1"]⟩, ⟨"m/b", ["r2"]⟩]

def chsW2 : List Change := [⟨"m/b", ["x"]⟩, ⟨"a", ["y"]⟩, ⟨"m/b", ["z"]⟩]

theorem propagate_deterministic_witness :
    propagateA id List.reverse (Report.mk gmW [] pkgsW [] chsW1) =
      propagateA List.reverse id (Report.mk gmW ["f.go"] pkgsW [] chsW2) :=
  propagate_deterministic gmW pkgsW [] ["f.go"] [] [] chsW1 chsW2
    id List.reverse List.reverse id
    (fun l => List.Perm.refl l) (fun l => List.reverse_perm l)
    (fun l => List.reverse_perm l) (fun l => List.Perm.refl l)
    (fun n => by
      simp [namesOf, chsW1, chsW2]
      tauto)

/- ------------------------------------------------------------------
The Changes pipeline (rippler.go, lines 92-141) with its gated go.mod diff
(lines 263-330) and external-module diff (lines 301-319, 367-453).
Subprocess-backed calls are oracles returning Except values; the pure logic
applied to their results is translated from the source.
------------------------------------------------------------------ -/

/-- strings.TrimSpace modeled on the character list: leading and trailing
whitespace removed. -/
def goTrimSpace (s : String) : String :=
  String.mk (((s.data.dropWhile Char.isWhitespace).reverse.dropWhile
    Char.isWhitespace).reverse)

/-- The post-subprocess logic of goModHasChanged: the diff output is non-empty
after trimming. -/
def goModHasChanged (out : String) : Bool :=
  decide (goTrimSpace out ≠ "")

/-- affectedPackagesByGoModChange: gated on the textual go.mod diff; only
when the diff is non-empty is the baseline manifest consulted and the module
diff wrapped into single-reason change records. -/
def affectedPackagesByGoModChange (gitDiffOut : Except String String)
    (baseGoMod : Except String GoMod) (currentGoMod : GoMod) :
    Except String (List Change) :=
  match gitDiffOut with
  | .error e => .error ("failed to check if go.mod has changed: " ++ e)
  | .ok out =>
    if goModHasChanged out = false then .ok []
    else
      match baseGoMod with
      | .error e => .error ("failed to get changed modules: " ++ e)
      | .ok oldMod =>
        .ok ((getChangedModules oldMod currentGoMod).map fun m =>
          Change.mk m ["module " ++ m ++ " has changed in go.mod"])

/-- The module map built from a go list -m all listing: assignment in line
order with later entries overwriting, lookup as a function into Option. -/
def modulesLookup (mods : List (String × String)) : String → Option String :=
  mods.foldl (fun m e => fun p => if p = e.1 then some e.2 else m p) (fun _ => none)

/-- getChangedIndirectModules: paths of current resolved modules that are
new or carry a different version than the baseline resolution. The Go map
iteration over currentMods is modeled as iteration of the listing in order
(keys are unique in a go list -m all listing). -/
def getChangedIndirectModules (baseMods currentMods : List (String × String)) :
    List String :=
  currentMods.foldl
    (fun changed e =>
      match modulesLookup baseMods e.1 with
      | none => changed ++ [e.1]
      | some oldVer => if oldVer ≠ e.2 then changed ++ [e.1] else changed)
    []

/-- affectedPackagesByExternalModule: wraps the resolved-dependency diff
into single-reason change records. -/
def affectedPackagesByExternalModule
    (baseMods currentMods : Except String (List (String × String))) :
    Except String (List Change) :=
  match baseMods with
  | .error e => .error ("failed to get changed indirect modules: " ++ e)
  | .ok bm =>
    match currentMods with
    | .error e => .error ("failed to get changed indirect modules: " ++ e)
    | .ok cm =>
      .ok ((getChangedIndirectModules bm cm).map fun m =>
        Change.mk m ["indirect module " ++ m ++ " has changed in go.sum"])

/-- Results of the external subprocess-backed calls consumed by Changes:
go.mod parse, go list of packages, git diff of Go files, git diff restricted
to go.mod, baseline go.mod retrieval and parse, and the two resolved-module
listings. -/
structure Oracles where
  parseGoMod : Except String GoMod
  listAllPackages : Except String (List Package)
  getChangedGoFiles : Except String (List String)
  gitDiffGoModOut : Except String String
  baseGoMod : Except String GoMod
  baseModules : Except String (List (String × String))
  currentModules : Except String (List (String × String))

def isErr {α : Type} : Except String α → Bool
  | .error _ => true
  | .ok _ => false

/-- Rippler.Changes: the Go (value, error) return pair is modeled as
(Option Report, Option String); every early return on a failed call yields
(none, some message). The map iterations inside the propagator are
instantiated with the identity enumeration in this deterministic model. -/
def ripplerChanges (o : Oracles) : Option Report × Option String :=
  match o.parseGoMod with
  | .error e => (none, some ("failed to parse go.mod: " ++ e))
  | .ok mod =>
    match o.listAllPackages with
    | .error e => (none, some ("failed to list all packages: " ++ e))
    | .ok allPackages =>
      match o.getChangedGoFiles with
      | .error e => (none, some ("failed to get changed Go files: " ++ e))
      | .ok dirtyFiles =>
        let changes1 := affectedPackagesByFileChanges allPackages dirtyFiles
        match affectedPackagesByGoModChange o.gitDiffGoModOut o.baseGoMod mod with
        | .error e =>
          (none, some ("failed to determine affected packages by go.mod change: " ++ e))
        | .ok changes2 =>
          match affectedPackagesByExternalModule o.baseModules o.currentModules with
          | .error e =>
            (none, some ("failed to determine affected packages by external module change: " ++ e))
          | .ok changes3 =>
            let unified := unifyChanges ((changes1 ++ changes2) ++ changes3)
            let report0 : Report := ⟨mod, dirtyFiles, allPackages, [], unified⟩
            (some { report0 with affectedPackages := propagateA id id report0 }, none)

/-- Claim C9: the pipeline never pairs a report with an error (the result is
either a report and no error, or no report and an error), and any failing
external call among manifest parse, package listing, changed-file diff,
manifest diff and resolved-dependency listing makes Changes return an error
and no report. -/
theorem changes_error_handling (o : Oracles) :
    ((ripplerChanges o).1.isSome = (ripplerChanges o).2.isNone) ∧
    ((isErr o.parseGoMod = true ∨ isErr o.listAllPackages = true ∨
      isErr o.getChangedGoFiles = true ∨
      (∀ m, isErr (affectedPackagesByGoModChange o.gitDiffGoModOut o.baseGoMod m) = true) ∨
      isErr (affectedPackagesByExternalModule o.baseModules o.currentModules) = true) →
      (ripplerChanges o).1 = none ∧ (ripplerChanges o).2.isSome = true) := by
  cases hp : o.parseGoMod with
  | error e =>
    exact ⟨by simp [ripplerChanges, hp], fun _ => by simp [ripplerChanges, hp]⟩
  | ok mod =>
    cases hl : o.listAllPackages with
    | error e =>
      exact ⟨by simp [ripplerChanges, hp, hl], fun _ => by simp [ripplerChanges, hp, hl]⟩
    | ok allPackages =>
      cases hg : o.getChangedGoFiles with
      | error e =>
        exact ⟨by simp [ripplerChanges, hp, hl, hg],
          fun _ => by simp [ripplerChanges, hp, hl, hg]⟩
      | ok dirtyFiles =>
        cases hm : affectedPackagesByGoModChange o.gitDiffGoModOut o.baseGoMod mod with
        | error e =>
          exact ⟨by simp [ripplerChanges, hp, hl, hg, hm],
            fun _ => by simp [ripplerChanges, hp, hl, hg, hm]⟩
        | ok changes2 =>
          cases hx : affectedPackagesByExternalModule o.baseModules o.currentModules with
          | error e =>
            exact ⟨by simp [ripplerChanges, hp, hl, hg, hm, hx],
              fun _ => by simp [ripplerChanges, hp, hl, hg, hm, hx]⟩
          | ok changes3 =>
            refine ⟨by simp [ripplerChanges, hp, hl, hg, hm, hx], ?_⟩
            intro h
            exfalso
            rcases h with h | h | h | h | h
            · simp [isErr] at h
            · simp [isErr] at h
            · simp [isErr] at h
            · have h2 := h mod
              rw [hm] at h2
              simp [isErr] at h2
            · simp [isErr] at h

def oraclesW : Oracles :=
  ⟨Except.ok ⟨⟨"m", "", false⟩, "1.22", [], [], [], []⟩,
   Except.ok [], Except.ok [],
   Except.error "git diff failed",
   Except.ok ⟨⟨"m", "", false⟩, "1.22", [], [], [], []⟩,
   Except.ok [], Except.ok []⟩

theorem changes_error_handling_witness :
    (ripplerChanges oraclesW).1 = none ∧ (ripplerChanges oraclesW).2.isSome = true :=
  (changes_error_handling oraclesW).2
    (Or.inr (Or.inr (Or.inr (Or.inl fun _ => rfl))))

theorem goModChange_ok_eq (out : String) (b : Except String GoMod) (c : GoMod) :
    affectedPackagesByGoModChange (Except.ok out) b c =
      if goModHasChanged out = false then Except.ok []
      else
        match b with
        | .error e => .error ("failed to get changed modules: " ++ e)
        | .ok oldMod =>
          .ok ((getChangedModules oldMod c).map fun m =>
            Change.mk m ["module " ++ m ++ " has changed in go.mod"]) := rfl

/-- Claim C10: when the textual go.mod diff reports no change, the go.mod
stage returns an empty change list and its result is independent of both the
baseline-manifest oracle and the Require list of the current manifest (the
baseline manifest is never consulted). -/
theorem goModChange_gate (out : String) (h : goModHasChanged out = false)
    (b1 b2 : Except String GoMod) (cur1 cur2 : GoMod) :
    affectedPackagesByGoModChange (Except.ok out) b1 cur1 = Except.ok [] ∧
    affectedPackagesByGoModChange (Except.ok out) b1 cur1 =
      affectedPackagesByGoModChange (Except.ok out) b2 cur2 := by
  have he : ∀ (b : Except String GoMod) (c : GoMod),
      affectedPackagesByGoModChange (Except.ok out) b c = Except.ok [] := by
    intro b c
    rw [goModChange_ok_eq, if_pos h]
  refine ⟨he b1 cur1, ?_⟩
  rw [he b1 cur1, he b2 cur2]

theorem goModChange_gate_witness :
    affectedPackagesByGoModChange (Except.ok "") (Except.error "no baseline") goModC4Cur =
      Except.ok [] ∧
    affectedPackagesByGoModChange (Except.ok "") (Except.error "no baseline") goModC4Cur =
      affectedPackagesByGoModChange (Except.ok "") (Except.ok goModC4Base) goModC4Base :=
  goModChange_gate "" (by decide) (Except.error "no baseline") (Except.ok goModC4Base)
    goModC4Cur goModC4Base

end GoRipple
